import Mathlib

/-!
Verification of the orchestration core of the wasm-compilers backend
(`src/index` route `/api/compile` plus `src/config/languages.ts`).

The TypeScript source is shallowly embedded: strings are Lean `String`s
(manipulated through their underlying `List Char`), JS `Map` objects become
association lists in insertion order, optional JSON fields become `Option`,
and every fallible out-of-process step (file system, docker) is driven by an
explicit oracle of booleans.  The admission queue (`executeWithQueue`) is
modelled as a labelled transition system over which reachability is defined.
-/

/-! ## Generic string helpers (embeddings of the JS string primitives used) -/

/-- Embedding of `String.prototype.startsWith` on character lists. -/
def listPrefixC : List Char → List Char → Bool
  | [], _ => true
  | _ :: _, [] => false
  | p :: ps, c :: cs => p == c && listPrefixC ps cs

/-- Embedding of `String.prototype.includes` on character lists:
`containsSub pat s` is true when `pat` occurs contiguously inside `s`. -/
def containsSub (pat : List Char) : List Char → Bool
  | [] => listPrefixC pat []
  | c :: cs => listPrefixC pat (c :: cs) || containsSub pat cs

/-- Embedding of `containerName.includes(pat)` (part_001 line 165). -/
def jsIncludes (s pat : String) : Bool := containsSub pat.data s.data

/-- Decimal digit character, as produced by JS number-to-string coercion. -/
def decDigit (d : Nat) : Char := Char.ofNat (48 + d)

/-- Decimal rendering of a natural number (embedding of the template-literal
coercion of `Date.now()` and loop indices).  The fuel argument only bounds the
recursion depth; `fuel = n + 1` always exceeds the digit count of `n`. -/
def natDigitsCore : Nat → Nat → List Char
  | 0, n => [decDigit (n % 10)]
  | fuel + 1, n =>
    if n < 10 then [decDigit n]
    else natDigitsCore fuel (n / 10) ++ [decDigit (n % 10)]

/-- Decimal rendering of a natural number as a character list. -/
def natDigits (n : Nat) : List Char := natDigitsCore n n

/-- Decimal rendering of a natural number as a string. -/
def natStr (n : Nat) : String := ⟨natDigits n⟩

theorem listPrefixC_subset {p s : List Char} (h : listPrefixC p s = true) :
    ∀ c ∈ p, c ∈ s := by
  induction p generalizing s with
  | nil => intro c hc; cases hc
  | cons a p ih =>
    cases s with
    | nil => simp [listPrefixC] at h
    | cons b t =>
      simp only [listPrefixC, Bool.and_eq_true, beq_iff_eq] at h
      intro c hc
      rcases List.mem_cons.mp hc with hc | hc
      · simp [hc, h.1]
      · exact List.mem_cons_of_mem _ (ih h.2 c hc)

theorem containsSub_subset {p s : List Char} (h : containsSub p s = true) :
    ∀ c ∈ p, c ∈ s := by
  induction s with
  | nil =>
    cases p with
    | nil => intro c hc; cases hc
    | cons a q => simp [containsSub, listPrefixC] at h
  | cons b t ih =>
    simp only [containsSub, Bool.or_eq_true] at h
    intro c hc
    rcases h with h | h
    · exact listPrefixC_subset h c hc
    · exact List.mem_cons_of_mem _ (ih h c hc)

theorem containsSub_eq_false {p s : List Char} {c : Char}
    (hc : c ∈ p) (hs : c ∉ s) : containsSub p s = false := by
  cases h : containsSub p s with
  | false => rfl
  | true => exact absurd (containsSub_subset h c hc) hs

theorem mem_natDigitsCore {fuel n : Nat} {c : Char}
    (h : c ∈ natDigitsCore fuel n) : ∃ d, d < 10 ∧ c = decDigit d := by
  induction fuel generalizing n with
  | zero =>
    simp only [natDigitsCore, List.mem_singleton] at h
    exact ⟨n % 10, Nat.mod_lt _ (by omega), h⟩
  | succ fuel ih =>
    simp only [natDigitsCore] at h
    split at h
    · simp only [List.mem_singleton] at h
      exact ⟨n, by omega, h⟩
    · rcases List.mem_append.mp h with h | h
      · exact ih h
      · simp only [List.mem_singleton] at h
        exact ⟨n % 10, Nat.mod_lt _ (by omega), h⟩

theorem l_not_mem_natDigits (n : Nat) : 'l' ∉ natDigits n := by
  intro h
  obtain ⟨d, hd, he⟩ := mem_natDigitsCore h
  interval_cases d <;> simp [decDigit] at he

/-- JS whitespace as used by `String.prototype.trim` (the characters that can
actually occur in the compiler output handled here). -/
def wsChar (c : Char) : Bool := c == ' ' || c == '\t' || c == '\n' || c == '\r'

/-- Embedding of `String.prototype.trim`. -/
def trimJS (s : List Char) : List Char :=
  ((s.dropWhile wsChar).reverse.dropWhile wsChar).reverse

/-! ## Language registry (embedding of `src/config/languages.ts`) -/

/-- Compile command for the C++ image (languages.ts). -/
def cppCompileCmd : String :=
  "bash -c \"emcc main.cpp -o temp.wasm -s STANDALONE_WASM=1 -s PURE_WASI=1 -O0 -s ERROR_ON_UNDEFINED_SYMBOLS=0 && wasm-opt temp.wasm -o output.wasm --asyncify\""

/-- Compile command for the Rust image (languages.ts). -/
def rustCompileCmd : String :=
  "bash -c \"rustc --target wasm32-wasip1 --edition 2021 -C opt-level=0 -o temp.wasm main.rs && wasm-opt temp.wasm -o output.wasm --asyncify --pass-arg=asyncify-imports@env.invoke_*,wasi_snapshot_preview1.fd_read,wasi_snapshot_preview1.poll_oneoff\""

/-- Compile command for the Go image (languages.ts). -/
def goCompileCmd : String :=
  "sh -c \"go build -p 4 -o output.wasm main.go && cp /usr/local/go/misc/wasm/wasm_exec.js wasm_exec.js\""

/-- Embedding of the `LanguageConfig` interface (languages.ts).  The
`defaultCode` field (editor placeholder text, never read by the server) is
omitted. -/
structure LanguageConfig where
  id : String
  name : String
  filename : String
  dockerImage : String
  compileCmd : String
  poolSize : Nat
deriving DecidableEq

/-- Embedding of the `LANGUAGES` record (languages.ts): the static registry
keyed by language identifier; `none` models an absent key. -/
def LANGUAGES (language : String) : Option LanguageConfig :=
  if language = "cpp" then
    some ⟨"cpp", "C++", "main.cpp", "wasm-compiler-cpp", cppCompileCmd, 3⟩
  else if language = "rust" then
    some ⟨"rust", "Rust", "main.rs", "wasm-compiler-rust", rustCompileCmd, 2⟩
  else if language = "go" then
    some ⟨"go", "Go", "main.go", "wasm-compiler-go", goCompileCmd, 3⟩
  else none

/-! ## Result cache (part_001 lines 22-25, 112-126) -/

/-- Entry of `compilationCache` (part_001 line 23); the source may omit
`wasmExec` in the type but every `set` call supplies it, so it is a plain
string here. -/
structure CacheEntry where
  wasm : String
  wasmExec : String
  timestamp : Nat
deriving DecidableEq

/-- `CACHE_TTL` (part_001 line 24). -/
def CACHE_TTL : Nat := 1000 * 60 * 60

/-- `MAX_CACHE_SIZE` (part_001 line 25). -/
def MAX_CACHE_SIZE : Nat := 100

/-- A JS `Map` in insertion order; `compilationCache.get`. -/
def lookupAssoc (cache : List (String × CacheEntry)) (k : String) :
    Option CacheEntry :=
  match cache with
  | [] => none
  | (k2, e) :: rest => if k2 = k then some e else lookupAssoc rest k

/-- `compilationCache.set`: replaces in place when the key exists (keeping the
insertion position, as a JS `Map` does), otherwise appends. -/
def setAssoc (cache : List (String × CacheEntry)) (k : String) (e : CacheEntry) :
    List (String × CacheEntry) :=
  if (lookupAssoc cache k).isSome then
    cache.map (fun kv => if kv.1 = k then (k, e) else kv)
  else cache ++ [(k, e)]

/-- Embedding of `getCacheKey` (part_001 lines 111-113).  The SHA-256 hex
digest of `language:code` is modelled by the digest's pre-image string itself,
which realises exactly the key-equality behaviour the code assumes of the
hash (identical inputs collide, distinct inputs do not). -/
def getCacheKey (language code : String) : String := language ++ ":" ++ code

/-- Embedding of `cleanCache` (part_001 lines 115-126).  Exactly as in the
source: the TTL purge deletes from the live map while iterating a snapshot;
the capacity step then measures the post-purge size but sorts and slices the
pre-purge snapshot. -/
def cleanCache (now : Nat) (cache : List (String × CacheEntry)) :
    List (String × CacheEntry) :=
  let entries := cache
  let afterTTL := cache.filter (fun kv => ¬ now - kv.2.timestamp > CACHE_TTL)
  if afterTTL.length > MAX_CACHE_SIZE then
    let sorted := entries.mergeSort (fun a b => a.2.timestamp ≤ b.2.timestamp)
    let toRemove := (sorted.take (afterTTL.length - MAX_CACHE_SIZE)).map (·.1)
    afterTTL.filter (fun kv => ¬ toRemove.contains kv.1)
  else afterTTL

/-! ## Container pool (part_001 lines 27-35, 152-170) -/

/-- `MAX_CONCURRENT_COMPILATIONS` (part_001 line 30). -/
def MAX_CONCURRENT_COMPILATIONS : Nat := 4

/-- The free lists of `containerPool`, one per registered language (the keys
of `LANGUAGES`). -/
structure PoolMap where
  cpp : List String
  rust : List String
  go : List String
deriving DecidableEq

/-- Lookup `containerPool[language]` (an unregistered key reads as empty; the
route never reaches the pool with one). -/
def poolOf (p : PoolMap) (language : String) : List String :=
  if language = "cpp" then p.cpp
  else if language = "rust" then p.rust
  else if language = "go" then p.go
  else []

/-- Write back `containerPool[language]`. -/
def setPoolOf (p : PoolMap) (language : String) (l : List String) : PoolMap :=
  if language = "cpp" then { p with cpp := l }
  else if language = "rust" then { p with rust := l }
  else if language = "go" then { p with go := l }
  else p

/-- Warm container name `wasm-pool-LANG-I` (part_001 line 57). -/
def warmContainerName (language : String) (i : Nat) : String :=
  "wasm-pool-" ++ language ++ "-" ++ natStr i

/-- Ephemeral container name `wasm-temp-LANG-TIMESTAMP` (part_001 line 155). -/
def tempContainerName (language : String) (t : Nat) : String :=
  "wasm-temp-" ++ language ++ "-" ++ natStr t

/-- `LANGUAGES[language]?.poolSize || 2` (part_001 line 164): JS `||` also
replaces a zero pool size. -/
def poolSizeOrDefault (language : String) : Nat :=
  match LANGUAGES language with
  | some c => if c.poolSize = 0 then 2 else c.poolSize
  | none => 2

/-- Embedding of `getContainer` (part_001 lines 152-160): pop the head of the
free list when nonempty, otherwise `docker run` an ephemeral container named
after the current timestamp (`runOk` is the oracle for that docker call);
`none` is the thrown error.  Returns the acquired name and the new free
list. -/
def getContainer (language : String) (pool : List String) (t : Nat)
    (runOk : Bool) : Option (String × List String) :=
  match pool with
  | h :: rest => some (h, rest)
  | [] => if runOk then some (tempContainerName language t, []) else none

/-- Embedding of `releaseContainer` (part_001 lines 162-170): push back onto
the free list when it is below `poolSize` and the name contains `"pool"`,
otherwise `docker rm -f` (failures of which are swallowed).  Returns the new
free list and whether the container was destroyed rather than pooled. -/
def releaseContainer (language : String) (pool : List String)
    (containerName : String) : List String × Bool :=
  if pool.length < poolSizeOrDefault language ∧ jsIncludes containerName "pool" then
    (pool ++ [containerName], false)
  else (pool, true)

/-! ## Error classifier (part_001 lines 244-258) -/

/-- Embedding of `raw.replace(/PAT[\s\S]*$/, '')` for a literal pattern: drop
everything from the first occurrence of `pat` on (used for the
`emcc: error:` filter, whose `[\s\S]*` swallows the rest of the string). -/
def dropFromFirst (pat : List Char) : List Char → List Char
  | [] => []
  | c :: cs =>
    if listPrefixC pat (c :: cs) then [] else c :: dropFromFirst pat cs

/-- Embedding of `raw.match(/(PAT[\s\S]*)/)` for a literal pattern: the
capture group running from the first occurrence of `pat` to the end, when the
pattern occurs at all (used for the `main.cpp:` diagnostic extraction). -/
def takeFromFirst (pat : List Char) : List Char → Option (List Char)
  | [] => none
  | c :: cs =>
    if listPrefixC pat (c :: cs) then some (c :: cs) else takeFromFirst pat cs

/-- Matcher for the tail `TOOL -c "[^"]+"` of the `Command failed:` regex:
consumes the tool pattern, then a nonempty run of non-quote characters, then
the closing quote, returning the remainder of the input. -/
def matchQuoted (t : List Char) : Option (List Char) :=
  let run := t.takeWhile (fun c => !(c == '"'))
  let rest := t.drop run.length
  if run.isEmpty then none
  else
    match rest with
    | '"' :: r => some r
    | _ => none

/-- Scan for `TOOL -c "` within the current line (the regex's `.*?` cannot
cross a newline), then hand over to `matchQuoted`; `none` when the tail of
the pattern cannot match from this start position. -/
def seekToolQuote (toolPat : List Char) : List Char → Option (List Char)
  | [] => none
  | c :: cs =>
    if listPrefixC toolPat (c :: cs) then
      matchQuoted ((c :: cs).drop toolPat.length)
    else if c = '\n' then none
    else seekToolQuote toolPat cs

/-- Whole-pattern matcher for `/Command failed:.*?TOOL -c "[^"]+"/` at the
current position: requires the literal `Command failed:` prefix and then the
scanned tail.  Returns the input remaining after the match. -/
def matchCmdFailed (toolPat : List Char) (s : List Char) : Option (List Char) :=
  let pre := "Command failed:".data
  if listPrefixC pre s then seekToolQuote toolPat (s.drop pre.length)
  else none

/-- Global replacement of `/Command failed:.*?TOOL -c "[^"]+"/g` with the
empty string, scanning left to right exactly as the regex engine does.  Every
match consumes at least the fifteen characters of `Command failed:`, so fuel
equal to the input length never runs out. -/
def replaceCmdFailedCore (toolPat : List Char) : Nat → List Char → List Char
  | 0, s => s
  | fuel + 1, s =>
    match matchCmdFailed toolPat s with
    | some rest => replaceCmdFailedCore toolPat fuel rest
    | none =>
      match s with
      | [] => []
      | c :: cs => c :: replaceCmdFailedCore toolPat fuel cs

/-- Embedding of `raw.replace(/Command failed:.*?TOOL -c "[^"]+"/g, '')`. -/
def replaceCmdFailed (tool : String) (s : List Char) : List Char :=
  replaceCmdFailedCore (tool.data ++ " -c \"".data) s.length s

/-- Embedding of `l.match(/^\d+\s*\|/)` viewed as a Boolean line filter:
one or more digits, optional whitespace, then a vertical bar. -/
def numPipeLine (l : List Char) : Bool :=
  let ds := l.takeWhile (fun c => c.isDigit)
  let rest := (l.drop ds.length).dropWhile wsChar
  !ds.isEmpty && listPrefixC ['|'] rest

/-- Embedding of the per-language error filtering (part_001 lines 245-255):
C++ keeps the text from the first `main.cpp:` diagnostic and strips the
trailing `emcc: error:` banner; Rust strips the `Command failed:` wrapper and
keeps only diagnostic-marker lines; every other language just strips the
wrapper.  All three branches end with `.trim()`. -/
def classifyClean (language : String) (raw : String) : String :=
  if language = "cpp" then
    let r1 :=
      match takeFromFirst "main.cpp:".data raw.data with
      | some m => m
      | none => raw.data
    ⟨trimJS (dropFromFirst "emcc: error:".data r1)⟩
  else if language = "rust" then
    let r1 := replaceCmdFailed "bash" raw.data
    let ls := r1.splitOn '\n'
    let kept := ls.filter (fun l =>
      listPrefixC "error:".data l || listPrefixC "-->".data l ||
      listPrefixC "|".data l || numPipeLine l)
    ⟨trimJS (List.intercalate ['\n'] kept)⟩
  else
    ⟨trimJS (replaceCmdFailed "sh" raw.data)⟩

/-- Embedding of the whole catch-block error production (part_001 lines
244-258): `error.stderr || error.message || "Compilation failed"`, the
per-language filter, then `cleanError || "Compilation failed"` as thrown to
the route's outer catch.  An absent `stderr`/`message` is the empty string. -/
def errorMessage (language stderr msg : String) : String :=
  let raw := if stderr ≠ "" then stderr else if msg ≠ "" then msg else "Compilation failed"
  let cleaned := classifyClean language raw
  if cleaned = "" then "Compilation failed" else cleaned

theorem fallback_ne_empty (c : String) :
    (if c = "" then "Compilation failed" else c) ≠ "" := by
  split
  · simp
  · next h => exact h

theorem errorMessage_ne_empty (language stderr msg : String) :
    errorMessage language stderr msg ≠ "" := by
  unfold errorMessage
  exact fallback_ne_empty _

/-! ## Server state, oracle, and the `/api/compile` route (part_001 lines 37-263) -/

/-- The mutable module state the route touches: the compilation cache, the
container pool's free lists, and the `poolReady` flag. -/
structure ServerState where
  cache : List (String × CacheEntry)
  pool : PoolMap
  poolReady : Bool
deriving DecidableEq

/-- Observable side effects of handling one request. -/
inductive Ev where
  | poolInit
  | queueAdmit
  | acquire (name : String)
  | cacheInsert (key : String)
  | rmScratch
  | release (name : String)
deriving DecidableEq

/-- Oracle for the out-of-process steps of one request, in the order the try
block performs them, plus the payloads a successful compile produces and the
error texts a failed step raises. -/
structure CompileOracle where
  dockerUp : Bool
  mkdirOk : Bool
  writeOk : Bool
  runTempOk : Bool
  cpInOk : Bool
  compileOk : Bool
  cpOutOk : Bool
  cpShimOk : Bool
  readWasmOk : Bool
  readShimOk : Bool
  wasmOut : String
  shimOut : String
  errStderr : String
  errMsg : String
deriving DecidableEq

/-- The names `initPool` provisions for one language (`wasm-pool-LANG-I`,
`i < poolSize`, part_001 lines 54-57). -/
def warmNames (language : String) (n : Nat) : List String :=
  (List.range n).map (warmContainerName language)

/-- The number of warm containers `initPool` provisions per language: the
registry's `poolSize`. -/
def poolSizeCfg (language : String) : Nat :=
  match LANGUAGES language with
  | some c => c.poolSize
  | none => 0

/-- Embedding of `initPool` (part_001 lines 42-97): when the docker runtime
answers, every language's free list receives its `poolSize` warm containers
and the pool becomes ready; when it does not, the state is left degraded
(`poolReady` stays false, nothing is pushed).  Whether each container is
reused, restarted or created is indistinguishable at this level, and the
concurrent pushes of the warm-up are recorded in index order. -/
def initPool (st : ServerState) (dockerUp : Bool) : ServerState × List Ev :=
  if dockerUp then
    ({ st with
        pool := ⟨st.pool.cpp ++ warmNames "cpp" (poolSizeCfg "cpp"),
                 st.pool.rust ++ warmNames "rust" (poolSizeCfg "rust"),
                 st.pool.go ++ warmNames "go" (poolSizeCfg "go")⟩,
        poolReady := true }, [Ev.poolInit])
  else (st, [])

/-- The `if (!poolReady) await initPool()` prologue of the route
(part_001 line 174). -/
def step0 (st : ServerState) (dockerUp : Bool) : ServerState × List Ev :=
  if st.poolReady then (st, []) else initPool st dockerUp

/-- Result of the queued compilation job: the success payload
`{wasm, wasmExec}` or the message of the error it throws. -/
inductive BrokerResult where
  | ok (wasm : String) (wasmExec : String)
  | fail (message : String)
deriving DecidableEq

/-- JS truthiness test `!x` for an optional string field: absent or empty. -/
def falsyOpt (s : Option String) : Bool :=
  match s with
  | none => true
  | some x => x = ""

/-- Shape of the JSON the route sends: `status` is the HTTP status, each
field is `some` exactly when the serialized object carries the key. -/
structure CompileResponse where
  status : Nat
  success : Option Bool
  wasm : Option String
  wasmExec : Option String
  cached : Option Bool
  error : Option String
deriving DecidableEq

/-- A 400 validation response (part_001 lines 176-184). -/
def resp400 (m : String) : CompileResponse :=
  { status := 400, success := none, wasm := none, wasmExec := none,
    cached := none, error := some m }

/-- Embedding of the queued compilation job (part_001 lines 199-256), the
body handed to `executeWithQueue`: the try block's fallible steps run in
source order under the oracle; on any failure the catch block releases the
container when one was acquired, removes the scratch directory, and throws
the classified error.  On success the cache is cleaned and written, the
scratch directory removed, the container cleanup fired and the container
released.  Returns the new state, the job's result, and the effect trace. -/
def brokerRun (language code key : String) (st : ServerState) (now : Nat)
    (o : CompileOracle) : ServerState × BrokerResult × List Ev :=
  if ¬ (o.mkdirOk ∧ o.writeOk) then
    (st, .fail (errorMessage language o.errStderr o.errMsg), [Ev.rmScratch])
  else
    match getContainer language (poolOf st.pool language) now o.runTempOk with
    | none =>
      (st, .fail (errorMessage language o.errStderr o.errMsg), [Ev.rmScratch])
    | some (containerName, popped) =>
      let st1 := { st with pool := setPoolOf st.pool language popped }
      if ¬ (o.cpInOk ∧ o.compileOk ∧ o.cpOutOk ∧
            (language = "go" → o.cpShimOk) ∧ o.readWasmOk ∧
            (language = "go" → o.readShimOk)) then
        let rel := releaseContainer language (poolOf st1.pool language) containerName
        ({ st1 with pool := setPoolOf st1.pool language rel.1 },
         .fail (errorMessage language o.errStderr o.errMsg),
         [Ev.acquire containerName, Ev.release containerName, Ev.rmScratch])
      else
        let wasmExecContent := if language = "go" then o.shimOut else ""
        let cache2 := setAssoc (cleanCache now st1.cache) key
          ⟨o.wasmOut, wasmExecContent, now⟩
        let rel := releaseContainer language (poolOf st1.pool language) containerName
        ({ st1 with cache := cache2, pool := setPoolOf st1.pool language rel.1 },
         .ok o.wasmOut wasmExecContent,
         [Ev.acquire containerName, Ev.cacheInsert key, Ev.rmScratch,
          Ev.release containerName])

/-- Embedding of the `/api/compile` route (part_001 lines 173-263), one
request handled to completion: the warm-up prologue, the two validation
checks, the cache lookup (a hit answers `cached: true` and bypasses queue,
pool and broker), and otherwise admission followed by the broker job, whose
success is sent as `{success, wasm, wasmExec}` (no `cached` key) and whose
failure becomes a 500 with the thrown message.  `language`/`code` are the
request body's fields, `Option` marking presence. -/
def handleCompile (st : ServerState) (language code : Option String)
    (now : Nat) (o : CompileOracle) : ServerState × CompileResponse × List Ev :=
  let s0 := step0 st o.dockerUp
  let st1 := s0.1
  let ev1 := s0.2
  if falsyOpt language ∨ falsyOpt code then
    (st1, resp400 "Missing language or code", ev1)
  else
    let lang := language.getD ""
    let codeS := code.getD ""
    if (LANGUAGES lang).isNone then
      (st1, resp400 "Unsupported language", ev1)
    else
      let key := getCacheKey lang codeS
      match lookupAssoc st1.cache key with
      | some e =>
        (st1,
         { status := 200, success := some true, wasm := some e.wasm,
           wasmExec := some e.wasmExec, cached := some true, error := none },
         ev1)
      | none =>
        let b := brokerRun lang codeS key st1 now o
        match b.2.1 with
        | .ok w sh =>
          (b.1,
           { status := 200, success := some true, wasm := some w,
             wasmExec := some sh, cached := none, error := none },
           ev1 ++ [Ev.queueAdmit] ++ b.2.2)
        | .fail m =>
          (b.1,
           { status := 500, success := none, wasm := none, wasmExec := none,
             cached := none, error := some m },
           ev1 ++ [Ev.queueAdmit] ++ b.2.2)

/-! ## Admission queue (`executeWithQueue`, part_001 lines 128-150)

The queue is modelled as a labelled transition system: `running` holds the
jobs currently counted by `activeCompilations`, `waiting` is `requestQueue`
in push order, and a completion step performs exactly what the source's
`finally` block performs synchronously: decrement, `shift()` the head
continuation and start it.  The ghost fields record every arrival, every
push onto the wait list, and every `shift()` in order. -/

structure QState where
  running : List Nat
  waiting : List Nat
  arrivals : List Nat
  enqueued : List Nat
  released : List Nat
  done : List Nat
deriving DecidableEq

/-- The initial queue state (empty queue, no active compilations). -/
def initQ : QState := ⟨[], [], [], [], [], []⟩

/-- A call to `executeWithQueue` for job `j` with concurrency limit `K`:
below the limit the job starts at once, otherwise its continuation is pushed
onto the FIFO wait list (part_001 lines 129-139). -/
def arriveQ (K j : Nat) (s : QState) : QState :=
  if s.running.length < K then
    { s with running := s.running ++ [j], arrivals := s.arrivals ++ [j] }
  else
    { s with waiting := s.waiting ++ [j], arrivals := s.arrivals ++ [j],
             enqueued := s.enqueued ++ [j] }

/-- Completion (success or failure) of a running job `j`: the `finally`
block decrements the active count and, when the wait list is nonempty,
`shift()`s exactly its head continuation and starts it
(part_001 lines 132-136 and 144-148). -/
def completeQ (j : Nat) (s : QState) : QState :=
  match s.waiting with
  | [] => { s with running := s.running.erase j, done := s.done ++ [j] }
  | w :: rest =>
    { s with running := s.running.erase j ++ [w], waiting := rest,
             released := s.released ++ [w], done := s.done ++ [j] }

/-- Reachability of a queue state under limit `K` from the empty state. -/
inductive Reach (K : Nat) : QState → Prop
  | init : Reach K initQ
  | arrive (j : Nat) (s : QState) : Reach K s → Reach K (arriveQ K j s)
  | complete (j : Nat) (s : QState) : Reach K s → j ∈ s.running →
      Reach K (completeQ j s)

/-- The inductive invariant of the admission queue. -/
def QInv (K : Nat) (s : QState) : Prop :=
  s.running.length ≤ K ∧
  (s.waiting ≠ [] → s.running.length = K) ∧
  s.arrivals.Perm (s.running ++ s.waiting ++ s.done) ∧
  s.enqueued = s.released ++ s.waiting


theorem perm_of_coe {l₁ l₂ : List Nat} (h : (↑l₁ : Multiset Nat) = ↑l₂) :
    l₁.Perm l₂ := Multiset.coe_eq_coe.mp h

theorem reach_inv {K : Nat} {s : QState} (h : Reach K s) : QInv K s := by
  induction h with
  | init =>
    exact ⟨by simp [initQ], by simp [initQ], by simp [initQ], by simp [initQ]⟩
  | arrive j s hr ih =>
    obtain ⟨h1, h2, h3, h4⟩ := ih
    have h3m := Multiset.coe_eq_coe.mpr h3
    unfold QInv arriveQ
    split
    · next hlt =>
      refine ⟨?_, ?_, ?_, ?_⟩
      · show (s.running ++ [j]).length ≤ K
        simp only [List.length_append, List.length_singleton]
        omega
      · intro hw
        exact absurd (h2 hw) (by omega)
      · show (s.arrivals ++ [j]).Perm ((s.running ++ [j]) ++ s.waiting ++ s.done)
        apply perm_of_coe
        simp only [← Multiset.coe_add, Multiset.coe_singleton] at h3m ⊢
        rw [h3m]
        abel
      · exact h4
    · next hge =>
      refine ⟨?_, ?_, ?_, ?_⟩
      · exact h1
      · intro _
        show s.running.length = K
        omega
      · show (s.arrivals ++ [j]).Perm (s.running ++ (s.waiting ++ [j]) ++ s.done)
        apply perm_of_coe
        simp only [← Multiset.coe_add, Multiset.coe_singleton] at h3m ⊢
        rw [h3m]
        abel
      · show s.enqueued ++ [j] = s.released ++ (s.waiting ++ [j])
        rw [h4, List.append_assoc]
  | complete j s hr hmem ih =>
    obtain ⟨h1, h2, h3, h4⟩ := ih
    have h3m := Multiset.coe_eq_coe.mpr h3
    have hpos : 0 < s.running.length := List.length_pos_of_mem hmem
    have hlen : (s.running.erase j).length = s.running.length - 1 :=
      List.length_erase_of_mem hmem
    have he : ((↑s.running : Multiset Nat).erase j) + {j} = ↑s.running := by
      rw [add_comm, Multiset.singleton_add]
      exact Multiset.cons_erase (Multiset.mem_coe.mpr hmem)
    rcases hw : s.waiting with _ | ⟨w, rest⟩
    · rw [completeQ, hw]
      refine ⟨?_, ?_, ?_, ?_⟩
      · show (s.running.erase j).length ≤ K
        omega
      · intro hc
        exact absurd rfl hc
      · show s.arrivals.Perm (s.running.erase j ++ [] ++ (s.done ++ [j]))
        apply perm_of_coe
        rw [hw] at h3m
        simp only [← Multiset.coe_add, Multiset.coe_singleton, ← Multiset.coe_erase,
          Multiset.coe_nil] at h3m ⊢
        rw [h3m]
        set E := (↑s.running : Multiset Nat).erase j with hE
        rw [← he]
        abel
      · show s.enqueued = s.released ++ []
        rw [h4, hw]
    · rw [completeQ, hw]
      have hK := h2 (by rw [hw]; simp)
      refine ⟨?_, ?_, ?_, ?_⟩
      · show (s.running.erase j ++ [w]).length ≤ K
        simp only [List.length_append, List.length_singleton]
        omega
      · intro _
        show (s.running.erase j ++ [w]).length = K
        simp only [List.length_append, List.length_singleton]
        omega
      · show s.arrivals.Perm ((s.running.erase j ++ [w]) ++ rest ++ (s.done ++ [j]))
        apply perm_of_coe
        rw [hw] at h3m
        simp only [← Multiset.coe_add, Multiset.coe_singleton, ← Multiset.coe_erase,
          ← Multiset.cons_coe, ← Multiset.singleton_add] at h3m ⊢
        rw [h3m]
        set E := (↑s.running : Multiset Nat).erase j with hE
        rw [← he]
        abel
      · show s.enqueued = (s.released ++ [w]) ++ rest
        rw [h4, hw, List.append_assoc]
        rfl

/-- One completion step of the drain schedule: finish the first running job
(if any), triggering the `finally` dequeue. -/
def drainOnce (s : QState) : QState :=
  match s.running with
  | [] => s
  | j :: _ => completeQ j s

/-- Iterate `n` completion steps. -/
def drainN : Nat → QState → QState
  | 0, s => s
  | n + 1, s => drainN n (drainOnce s)

theorem completeQ_arrivals (j : Nat) (s : QState) :
    (completeQ j s).arrivals = s.arrivals := by
  unfold completeQ
  rcases s.waiting <;> rfl

theorem completeQ_measure {j : Nat} {s : QState} (hmem : j ∈ s.running) :
    (completeQ j s).running.length + (completeQ j s).waiting.length + 1
      = s.running.length + s.waiting.length := by
  have hlen := List.length_erase_of_mem hmem
  have hpos := List.length_pos_of_mem hmem
  rcases hw : s.waiting with _ | ⟨w, rest⟩ <;> rw [completeQ, hw] <;>
    simp only [List.length_append, List.length_singleton, List.length_nil,
      List.length_cons, hlen] <;> omega

theorem drainN_flushes {K : Nat} (hK : 0 < K) :
    ∀ n (s : QState), Reach K s → s.running.length + s.waiting.length ≤ n →
      (drainN n s).running = [] ∧ (drainN n s).waiting = [] ∧
      (drainN n s).arrivals = s.arrivals ∧ Reach K (drainN n s) := by
  intro n
  induction n with
  | zero =>
    intro s h hm
    have hr : s.running = [] := by
      have := List.length_eq_zero.mp (by omega : s.running.length = 0)
      exact this
    have hw : s.waiting = [] :=
      List.length_eq_zero.mp (by omega : s.waiting.length = 0)
    exact ⟨hr, hw, rfl, h⟩
  | succ n ih =>
    intro s h hm
    rcases hr : s.running with _ | ⟨j, t⟩
    · have hw : s.waiting = [] := by
        by_contra hwne
        have := (reach_inv h).2.1 hwne
        rw [hr] at this
        simp at this
        omega
      have hs : drainOnce s = s := by unfold drainOnce; rw [hr]
      rw [drainN, hs]
      exact ih s h (by rw [hr, hw]; simp)
    · have hjmem : j ∈ s.running := by rw [hr]; exact List.mem_cons_self j t
      have hs : drainOnce s = completeQ j s := by unfold drainOnce; rw [hr]
      have hre : Reach K (completeQ j s) := Reach.complete j s h hjmem
      have hme : (completeQ j s).running.length + (completeQ j s).waiting.length ≤ n := by
        have := completeQ_measure hjmem
        omega
      rw [drainN, hs]
      obtain ⟨a, b, c, d⟩ := ih (completeQ j s) hre hme
      exact ⟨a, b, by rw [c, completeQ_arrivals], d⟩

/-- C3: at no instant do more than the concurrency limit of admitted jobs
run concurrently (the source constant is `MAX_CONCURRENT_COMPILATIONS = 4`);
no job is silently dropped — every arrival is accounted for as running,
waiting or done; and as long as running jobs keep completing every arrival
eventually completes: draining one completion at a time empties the queue
and finishes exactly the arrived jobs. -/
theorem queue_concurrency_bound (K : Nat) (s : QState) (hK : 0 < K)
    (h : Reach K s) :
    s.running.length ≤ K ∧
    s.arrivals.Perm (s.running ++ s.waiting ++ s.done) ∧
    (drainN (s.running.length + s.waiting.length) s).running = [] ∧
    (drainN (s.running.length + s.waiting.length) s).waiting = [] ∧
    (drainN (s.running.length + s.waiting.length) s).done.Perm s.arrivals := by
  obtain ⟨h1, h2, h3, h4⟩ := reach_inv h
  obtain ⟨a, b, c, d⟩ := drainN_flushes hK (s.running.length + s.waiting.length) s h le_rfl
  refine ⟨h1, h3, a, b, ?_⟩
  have hfin := (reach_inv d).2.2.1
  rw [a, b, c] at hfin
  simpa using hfin.symm

/-- Five requests arriving in a burst against the source's limit of four. -/
def burstC3 : QState :=
  arriveQ MAX_CONCURRENT_COMPILATIONS 5
    (arriveQ MAX_CONCURRENT_COMPILATIONS 4
      (arriveQ MAX_CONCURRENT_COMPILATIONS 3
        (arriveQ MAX_CONCURRENT_COMPILATIONS 2
          (arriveQ MAX_CONCURRENT_COMPILATIONS 1 initQ))))

theorem queue_concurrency_bound_witness :
    0 < MAX_CONCURRENT_COMPILATIONS ∧
    (burstC3.running.length ≤ MAX_CONCURRENT_COMPILATIONS ∧
     burstC3.arrivals.Perm (burstC3.running ++ burstC3.waiting ++ burstC3.done) ∧
     (drainN (burstC3.running.length + burstC3.waiting.length) burstC3).running = [] ∧
     (drainN (burstC3.running.length + burstC3.waiting.length) burstC3).waiting = [] ∧
     (drainN (burstC3.running.length + burstC3.waiting.length) burstC3).done.Perm
       burstC3.arrivals) :=
  ⟨by decide,
   queue_concurrency_bound MAX_CONCURRENT_COMPILATIONS burstC3 (by decide)
     (Reach.arrive 5 _ (Reach.arrive 4 _ (Reach.arrive 3 _ (Reach.arrive 2 _
       (Reach.arrive 1 _ Reach.init)))))⟩

/-- C4: when any admitted job completes, exactly one waiting continuation
(if any exists) is dequeued — the head of the wait list — and started, and
continuations queued while at capacity are released strictly in their
arrival order: the shift log `released` extended by the current wait list
always reproduces the push log `enqueued` in order. -/
theorem queue_fifo_release (K : Nat) (s : QState) (h : Reach K s) :
    s.enqueued = s.released ++ s.waiting ∧
    ∀ j ∈ s.running,
      (completeQ j s).released = s.released ++ s.waiting.take 1 ∧
      (completeQ j s).waiting = s.waiting.drop 1 ∧
      ∀ w ∈ s.waiting.take 1, w ∈ (completeQ j s).running := by
  refine ⟨(reach_inv h).2.2.2, ?_⟩
  intro j hj
  rcases hw : s.waiting with _ | ⟨w, rest⟩ <;> rw [completeQ, hw] <;>
    simp

/-- Six requests arriving in a burst against the source's limit of four. -/
def burstC4 : QState :=
  arriveQ MAX_CONCURRENT_COMPILATIONS 16
    (arriveQ MAX_CONCURRENT_COMPILATIONS 15
      (arriveQ MAX_CONCURRENT_COMPILATIONS 14
        (arriveQ MAX_CONCURRENT_COMPILATIONS 13
          (arriveQ MAX_CONCURRENT_COMPILATIONS 12
            (arriveQ MAX_CONCURRENT_COMPILATIONS 11 initQ)))))

theorem queue_fifo_release_witness :
    burstC4.enqueued = burstC4.released ++ burstC4.waiting ∧
    ∀ j ∈ burstC4.running,
      (completeQ j burstC4).released = burstC4.released ++ burstC4.waiting.take 1 ∧
      (completeQ j burstC4).waiting = burstC4.waiting.drop 1 ∧
      ∀ w ∈ burstC4.waiting.take 1, w ∈ (completeQ j burstC4).running :=
  queue_fifo_release MAX_CONCURRENT_COMPILATIONS burstC4
    (Reach.arrive 16 _ (Reach.arrive 15 _ (Reach.arrive 14 _ (Reach.arrive 13 _
      (Reach.arrive 12 _ (Reach.arrive 11 _ Reach.init))))))

/-! ## Claims about the broker and the pool -/

/-- Recognizer for release effects. -/
def isRelease : Ev → Bool
  | .release _ => true
  | _ => false

/-- Recognizer for acquisition effects. -/
def isAcquire : Ev → Bool
  | .acquire _ => true
  | _ => false

/-- Recognizer for scratch-directory removal effects. -/
def isRmScratch : Ev → Bool
  | .rmScratch => true
  | _ => false

/-- Recognizer for cache-insertion effects. -/
def isCacheInsert : Ev → Bool
  | .cacheInsert _ => true
  | _ => false

/-- C5: on every path through the broker job — success or failure, whichever
step the oracle fails — the scratch directory is removed exactly once, and
the container is released exactly as many times as one was acquired (and at
most one is acquired), so an acquired sandbox handle is released exactly
once and never twice. -/
theorem broker_cleanup_once (language code key : String) (st : ServerState)
    (now : Nat) (o : CompileOracle) :
    (brokerRun language code key st now o).2.2.countP isRmScratch = 1 ∧
    (brokerRun language code key st now o).2.2.countP isRelease
      = (brokerRun language code key st now o).2.2.countP isAcquire ∧
    (brokerRun language code key st now o).2.2.countP isAcquire ≤ 1 := by
  unfold brokerRun
  split
  · simp [List.countP_cons, isRmScratch, isRelease, isAcquire]
  · split
    · simp [List.countP_cons, isRmScratch, isRelease, isAcquire]
    · split
      · simp [List.countP_cons, isRmScratch, isRelease, isAcquire]
      · simp [List.countP_cons, isRmScratch, isRelease, isAcquire]

theorem listPrefixC_self_append (p rest : List Char) :
    listPrefixC p (p ++ rest) = true := by
  induction p with
  | nil => rfl
  | cons a q ih => simp [listPrefixC, ih]

theorem containsSub_self_append (pat rest : List Char) :
    containsSub pat (pat ++ rest) = true := by
  cases pat with
  | nil => cases rest <;> simp [containsSub, listPrefixC]
  | cons a q =>
    simp only [containsSub, List.cons_append, Bool.or_eq_true]
    exact Or.inl (listPrefixC_self_append (a :: q) rest)

theorem containsSub_cons_true (pat : List Char) (c : Char) (cs : List Char)
    (h : containsSub pat cs = true) : containsSub pat (c :: cs) = true := by
  simp [containsSub, h]

theorem jsIncludes_warm (language : String) (i : Nat) :
    jsIncludes (warmContainerName language i) "pool" = true := by
  have hd : (warmContainerName language i).data
      = 'w' :: 'a' :: 's' :: 'm' :: '-' ::
        (['p', 'o', 'o', 'l'] ++
          ('-' :: (language.data ++ ('-' :: (natStr i).data)))) := by
    unfold warmContainerName
    rw [String.data_append, String.data_append, String.data_append]
    show ((['w','a','s','m','-','p','o','o','l','-'] ++ language.data)
        ++ ['-']) ++ (natStr i).data = _
    simp [List.append_assoc]
  unfold jsIncludes
  rw [hd]
  apply containsSub_cons_true
  apply containsSub_cons_true
  apply containsSub_cons_true
  apply containsSub_cons_true
  apply containsSub_cons_true
  exact containsSub_self_append _ _

theorem jsIncludes_temp (language : String) (hl : 'l' ∉ language.data)
    (t : Nat) : jsIncludes (tempContainerName language t) "pool" = false := by
  unfold jsIncludes tempContainerName
  apply containsSub_eq_false (c := 'l')
  · decide
  · rw [String.data_append, String.data_append, String.data_append]
    intro hmem
    rcases List.mem_append.mp hmem with h | h
    · rcases List.mem_append.mp h with h | h
      · rcases List.mem_append.mp h with h | h
        · revert h; decide
        · exact hl h
      · revert h; decide
    · exact l_not_mem_natDigits t h

/-- C6: on release, a warm-origin container (provisioned name
`wasm-pool-LANG-I`) is returned to its language's free list exactly when
that list is below the provisioned warm size and is destroyed otherwise;
an ephemeral container — the `wasm-temp-…` one `getContainer` creates when
the free list is empty — is always destroyed on release and never enters
the free list. -/
theorem release_policy (language : String)
    (hl : language = "cpp" ∨ language = "rust" ∨ language = "go")
    (pool pool2 : List String) (i t : Nat) :
    (releaseContainer language pool (warmContainerName language i)
      = if pool.length < poolSizeOrDefault language
        then (pool ++ [warmContainerName language i], false)
        else (pool, true)) ∧
    getContainer language [] t true = some (tempContainerName language t, []) ∧
    releaseContainer language pool2 (tempContainerName language t)
      = (pool2, true) := by
  have hlnot : 'l' ∉ language.data := by
    rcases hl with h | h | h <;> rw [h] <;> decide
  refine ⟨?_, rfl, ?_⟩
  · unfold releaseContainer
    rw [jsIncludes_warm]
    simp
  · unfold releaseContainer
    rw [jsIncludes_temp language hlnot t]
    simp

theorem release_policy_witness :
    (releaseContainer "cpp" [] (warmContainerName "cpp" 0)
      = if ([] : List String).length < poolSizeOrDefault "cpp"
        then ([] ++ [warmContainerName "cpp" 0], false)
        else ([], true)) ∧
    getContainer "cpp" [] 987654 true
      = some (tempContainerName "cpp" 987654, []) ∧
    releaseContainer "cpp" ["wasm-pool-cpp-0"] (tempContainerName "cpp" 987654)
      = (["wasm-pool-cpp-0"], true) :=
  release_policy "cpp" (Or.inl rfl) [] ["wasm-pool-cpp-0"] 0 987654

/-! ## Claims about the route handler -/

theorem step0_cache (st : ServerState) (d : Bool) :
    (step0 st d).1.cache = st.cache := by
  unfold step0 initPool
  split
  · rfl
  · split <;> rfl

theorem step0_of_ready {st : ServerState} (h : st.poolReady = true) (d : Bool) :
    step0 st d = (st, []) := by
  unfold step0
  rw [h]
  simp

theorem step0_cases (st : ServerState) (d : Bool) :
    (step0 st d).2 = [] ∨ (step0 st d).2 = [Ev.poolInit] := by
  unfold step0 initPool
  split
  · exact Or.inl rfl
  · split
    · exact Or.inr rfl
    · exact Or.inl rfl

theorem handleCompile_invalid (st : ServerState) (language code : Option String)
    (now : Nat) (o : CompileOracle)
    (hv : falsyOpt language = true ∨ falsyOpt code = true ∨
          (LANGUAGES (language.getD "")).isNone = true) :
    ∃ m, handleCompile st language code now o
      = ((step0 st o.dockerUp).1, resp400 m, (step0 st o.dockerUp).2) := by
  simp only [handleCompile]
  split
  · exact ⟨_, rfl⟩
  · next hb =>
    split
    · exact ⟨_, rfl⟩
    · next hc =>
      exfalso
      rcases hv with h | h | h
      · exact hb (Or.inl h)
      · exact hb (Or.inr h)
      · exact hc h

theorem brokerRun_fail_msg {language code key : String} {st : ServerState}
    {now : Nat} {o : CompileOracle} {m : String}
    (h : (brokerRun language code key st now o).2.1 = .fail m) :
    m = errorMessage language o.errStderr o.errMsg := by
  unfold brokerRun at h
  split at h
  · simp at h
    exact h.symm
  · split at h
    · simp at h
      exact h.symm
    · split at h
      · simp at h
        exact h.symm
      · simp at h

/-- C7: a caller never receives an empty error string: whenever the response
carries an `error` field it is nonempty — the two validation messages are
nonempty literals, and the compile-failure path ends in the
`cleanError || "Compilation failed"` fallback of the classifier. -/
theorem error_never_empty (st : ServerState) (language code : Option String)
    (now : Nat) (o : CompileOracle) (s : String)
    (h : (handleCompile st language code now o).2.1.error = some s) :
    s ≠ "" := by
  simp only [handleCompile] at h
  split at h
  · simp [resp400] at h
    rw [← h]
    decide
  · split at h
    · simp [resp400] at h
      rw [← h]
      decide
    · split at h
      · simp at h
      · split at h
        · simp at h
        · next m hm =>
          simp at h
          rw [← h, brokerRun_fail_msg hm]
          exact errorMessage_ne_empty _ _ _

/-- The module state right after a successful warm-up with nothing cached
and every warm container checked out (free lists empty). -/
def readyState : ServerState := ⟨[], ⟨[], [], []⟩, true⟩

/-- An oracle on which every out-of-process step succeeds. -/
def okOracle : CompileOracle :=
  ⟨true, true, true, true, true, true, true, true, true, true,
   "QUJDRA==", "shimtext", "", ""⟩

/-- An oracle on which the in-sandbox compile step fails with stderr
`boom`. -/
def failOracle : CompileOracle :=
  ⟨true, true, true, true, true, false, true, true, true, true,
   "QUJDRA==", "shimtext", "boom", ""⟩

theorem error_never_empty_witness : ("boom" : String) ≠ "" :=
  error_never_empty readyState (some "cpp") (some "x") 0 failOracle "boom"
    (by decide)

/-- C9: a request whose source text is present but empty is rejected exactly
like an absent one: status 400 with the error `Missing language or code`,
whatever the language field holds. -/
theorem empty_source_rejected (st : ServerState) (language : Option String)
    (now : Nat) (o : CompileOracle) :
    (handleCompile st language (some "") now o).2.1.status = 400 ∧
    (handleCompile st language (some "") now o).2.1.error
      = some "Missing language or code" := by
  have hm : handleCompile st language (some "") now o
      = ((step0 st o.dockerUp).1, resp400 "Missing language or code",
         (step0 st o.dockerUp).2) := by
    simp only [handleCompile]
    rw [if_pos (Or.inr (by decide))]
  rw [hm]
  exact ⟨rfl, rfl⟩

/-- C8 (amended): a request with a missing or unsupported language, or
missing/empty source, is answered immediately with a 400 validation error;
it performs no sandbox acquisition, no queue admission and no cache
mutation, and the cache is unchanged.  The pool free lists are unchanged
whenever the pool is already warm; when it is not, the request first
triggers the global warm-up prologue that every request runs, which can
fill the free lists. -/
theorem validation_no_effects (st : ServerState) (language code : Option String)
    (now : Nat) (o : CompileOracle)
    (hv : falsyOpt language = true ∨ falsyOpt code = true ∨
          (LANGUAGES (language.getD "")).isNone = true) :
    (handleCompile st language code now o).2.1.status = 400 ∧
    (handleCompile st language code now o).1.cache = st.cache ∧
    (handleCompile st language code now o).2.2.countP isAcquire = 0 ∧
    (handleCompile st language code now o).2.2.countP isCacheInsert = 0 ∧
    Ev.queueAdmit ∉ (handleCompile st language code now o).2.2 ∧
    (st.poolReady = true → (handleCompile st language code now o).1 = st) := by
  obtain ⟨m, hm⟩ := handleCompile_invalid st language code now o hv
  rw [hm]
  refine ⟨rfl, step0_cache st o.dockerUp, ?_, ?_, ?_, ?_⟩
  · rcases step0_cases st o.dockerUp with h | h <;> rw [h] <;> rfl
  · rcases step0_cases st o.dockerUp with h | h <;> rw [h] <;> rfl
  · rcases step0_cases st o.dockerUp with h | h <;> rw [h] <;> simp
  · intro hready
    rw [step0_of_ready hready]

theorem validation_no_effects_witness :
    (handleCompile readyState none (some "x") 0 okOracle).2.1.status = 400 ∧
    (handleCompile readyState none (some "x") 0 okOracle).1.cache
      = readyState.cache ∧
    (handleCompile readyState none (some "x") 0 okOracle).2.2.countP isAcquire
      = 0 ∧
    (handleCompile readyState none (some "x") 0 okOracle).2.2.countP
      isCacheInsert = 0 ∧
    Ev.queueAdmit ∉ (handleCompile readyState none (some "x") 0 okOracle).2.2 ∧
    (readyState.poolReady = true →
      (handleCompile readyState none (some "x") 0 okOracle).1 = readyState) :=
  validation_no_effects readyState none (some "x") 0 okOracle
    (Or.inl (by decide))

/-- The module state before any successful warm-up: nothing cached, empty
free lists, `poolReady` still false. -/
def coldState : ServerState := ⟨[], ⟨[], [], []⟩, false⟩

/-- C8 counterexample: against a not-yet-warm pool with a reachable docker
runtime, even a request that fails validation (here: both fields missing)
changes the pool free lists — the warm-up prologue fills them before the
validation checks run — so the claim that such a request leaves the free
lists unchanged is false of the code. -/
theorem validation_warms_pool :
    (handleCompile coldState none none 0 okOracle).2.1.status = 400 ∧
    (handleCompile coldState none none 0 okOracle).1.pool ≠ coldState.pool := by
  decide

/-- C2 counterexample: a freshly compiled success response carries
`success: true` but no `cached` key at all — in particular `cached` is not
the claimed boolean `false`. -/
theorem fresh_response_has_no_cached_field :
    (handleCompile readyState (some "cpp") (some "abc") 7 okOracle).2.1.success
      = some true ∧
    (handleCompile readyState (some "cpp") (some "abc") 7 okOracle).2.1.cached
      = none := by
  decide

theorem handleCompile_hit {st : ServerState} {lang code : String} {now : Nat}
    {o : CompileOracle} {e : CacheEntry}
    (hfal : ¬(falsyOpt (some lang) = true ∨ falsyOpt (some code) = true))
    (hl : ¬((LANGUAGES lang).isNone = true))
    (he : lookupAssoc st.cache (getCacheKey lang code) = some e) :
    handleCompile st (some lang) (some code) now o
      = ((step0 st o.dockerUp).1,
         { status := 200, success := some true, wasm := some e.wasm,
           wasmExec := some e.wasmExec, cached := some true, error := none },
         (step0 st o.dockerUp).2) := by
  simp only [handleCompile, Option.getD_some]
  rw [if_neg hfal, if_neg hl, step0_cache, he]

theorem handleCompile_miss_ok {st : ServerState} {lang code : String}
    {now : Nat} {o : CompileOracle} {w sh : String}
    (hfal : ¬(falsyOpt (some lang) = true ∨ falsyOpt (some code) = true))
    (hl : ¬((LANGUAGES lang).isNone = true))
    (he : lookupAssoc st.cache (getCacheKey lang code) = none)
    (hb : (brokerRun lang code (getCacheKey lang code)
            (step0 st o.dockerUp).1 now o).2.1 = .ok w sh) :
    handleCompile st (some lang) (some code) now o
      = ((brokerRun lang code (getCacheKey lang code)
            (step0 st o.dockerUp).1 now o).1,
         { status := 200, success := some true, wasm := some w,
           wasmExec := some sh, cached := none, error := none },
         (step0 st o.dockerUp).2 ++ [Ev.queueAdmit]
           ++ (brokerRun lang code (getCacheKey lang code)
                (step0 st o.dockerUp).1 now o).2.2) := by
  simp only [handleCompile, Option.getD_some]
  rw [if_neg hfal, if_neg hl, step0_cache, he, hb]

theorem handleCompile_miss_fail {st : ServerState} {lang code : String}
    {now : Nat} {o : CompileOracle} {m : String}
    (hfal : ¬(falsyOpt (some lang) = true ∨ falsyOpt (some code) = true))
    (hl : ¬((LANGUAGES lang).isNone = true))
    (he : lookupAssoc st.cache (getCacheKey lang code) = none)
    (hb : (brokerRun lang code (getCacheKey lang code)
            (step0 st o.dockerUp).1 now o).2.1 = .fail m) :
    handleCompile st (some lang) (some code) now o
      = ((brokerRun lang code (getCacheKey lang code)
            (step0 st o.dockerUp).1 now o).1,
         { status := 500, success := none, wasm := none,
           wasmExec := none, cached := none, error := some m },
         (step0 st o.dockerUp).2 ++ [Ev.queueAdmit]
           ++ (brokerRun lang code (getCacheKey lang code)
                (step0 st o.dockerUp).1 now o).2.2) := by
  simp only [handleCompile, Option.getD_some]
  rw [if_neg hfal, if_neg hl, step0_cache, he, hb]

/-- C2 (amended): every success response carries `success: true` and the
transport-encoded artifact, and its `cached` field is `true` exactly when
the result was served from the result cache; a freshly compiled success
response carries no `cached` key at all (rather than `cached: false`). -/
theorem cached_flag_iff_cache_hit (st : ServerState) (lang code : String)
    (now : Nat) (o : CompileOracle) (hl : (LANGUAGES lang).isSome = true)
    (hc : code ≠ "") :
    (handleCompile st (some lang) (some code) now o).2.1.success = some true →
    ((handleCompile st (some lang) (some code) now o).2.1.wasm).isSome = true ∧
    (handleCompile st (some lang) (some code) now o).2.1.cached
      = (if (lookupAssoc st.cache (getCacheKey lang code)).isSome
         then some true else none) := by
  have hlang : lang ≠ "" := by
    intro hq
    rw [hq] at hl
    exact absurd hl (by decide)
  have hfal : ¬(falsyOpt (some lang) = true ∨ falsyOpt (some code) = true) := by
    simp [falsyOpt, hlang, hc]
  have hnn : ¬((LANGUAGES lang).isNone = true) := by
    rcases hL : LANGUAGES lang with _ | c
    · rw [hL] at hl
      simp at hl
    · simp
  rcases he : lookupAssoc st.cache (getCacheKey lang code) with _ | e
  · rcases hb : (brokerRun lang code (getCacheKey lang code)
        (step0 st o.dockerUp).1 now o).2.1 with ⟨w, sh⟩ | m
    · rw [handleCompile_miss_ok hfal hnn he hb]
      intro _
      exact ⟨rfl, rfl⟩
    · rw [handleCompile_miss_fail hfal hnn he hb]
      intro hcon
      simp at hcon
  · rw [handleCompile_hit hfal hnn he]
    intro _
    exact ⟨rfl, rfl⟩

theorem cached_flag_iff_cache_hit_witness :
    ((handleCompile readyState (some "cpp") (some "abc") 7 okOracle).2.1.wasm).isSome
      = true ∧
    (handleCompile readyState (some "cpp") (some "abc") 7 okOracle).2.1.cached
      = (if (lookupAssoc readyState.cache (getCacheKey "cpp" "abc")).isSome
         then some true else none) :=
  cached_flag_iff_cache_hit readyState "cpp" "abc" 7 okOracle (by decide)
    (by decide) (by decide)

theorem lookupAssoc_mem {cache : List (String × CacheEntry)} {k : String}
    {e : CacheEntry} (h : lookupAssoc cache k = some e) : (k, e) ∈ cache := by
  induction cache with
  | nil => simp [lookupAssoc] at h
  | cons kv rest ih =>
    rcases kv with ⟨k2, e2⟩
    unfold lookupAssoc at h
    split at h
    · next heq =>
      injection h with h2
      rw [← heq, h2]
      exact List.mem_cons_self _ _
    · exact List.mem_cons_of_mem _ (ih h)

theorem takeWhile_until_colon (L R : List Char) (h : ':' ∉ L) :
    (L ++ ':' :: R).takeWhile (fun ch => ch != ':') = L := by
  induction L with
  | nil => simp
  | cons a L ih =>
    have ha : a ≠ ':' := fun e => h (by simp [e])
    simp only [List.cons_append, List.takeWhile_cons]
    rw [if_pos (by simp [ha]), ih fun hm => h (List.mem_cons_of_mem _ hm)]

theorem getCacheKey_takeWhile (l c : String) (h : ':' ∉ l.data) :
    (getCacheKey l c).data.takeWhile (fun ch => ch != ':') = l.data := by
  unfold getCacheKey
  rw [String.data_append, String.data_append, List.append_assoc]
  exact takeWhile_until_colon l.data c.data h

theorem registered_lang_cases {l : String} (h : (LANGUAGES l).isSome = true) :
    l = "cpp" ∨ l = "rust" ∨ l = "go" := by
  by_contra hq
  push_neg at hq
  obtain ⟨a, b, c⟩ := hq
  unfold LANGUAGES at h
  rw [if_neg a, if_neg b, if_neg c] at h
  simp at h

theorem getCacheKey_lang_inj {l1 l2 c1 c2 : String}
    (h1 : (LANGUAGES l1).isSome = true) (h2 : (LANGUAGES l2).isSome = true)
    (he : getCacheKey l1 c1 = getCacheKey l2 c2) : l1 = l2 := by
  have hn1 : ':' ∉ l1.data := by
    rcases registered_lang_cases h1 with h | h | h <;> rw [h] <;> decide
  have hn2 : ':' ∉ l2.data := by
    rcases registered_lang_cases h2 with h | h | h <;> rw [h] <;> decide
  have hd := congrArg (fun s : String => s.data.takeWhile (fun ch => ch != ':')) he
  simp only at hd
  rw [getCacheKey_takeWhile l1 c1 hn1, getCacheKey_takeWhile l2 c2 hn2] at hd
  exact congrArg String.mk hd

/-- Well-formedness of the cache contents: every entry was stored under the
key of a registered language, and entries of non-Go languages carry the
empty runtime shim.  It holds of the empty initial cache and is preserved by
every request. -/
def CacheWF (cache : List (String × CacheEntry)) : Prop :=
  ∀ kv ∈ cache, ∃ l c, (LANGUAGES l).isSome = true ∧ kv.1 = getCacheKey l c ∧
    (l ≠ "go" → kv.2.wasmExec = "")

theorem brokerRun_ok_shape {language code key : String} {st : ServerState}
    {now : Nat} {o : CompileOracle} {w sh : String}
    (h : (brokerRun language code key st now o).2.1 = .ok w sh) :
    w = o.wasmOut ∧ sh = (if language = "go" then o.shimOut else "") := by
  unfold brokerRun at h
  split at h
  · simp at h
  · split at h
    · simp at h
    · split at h
      · simp at h
      · simp at h
        exact ⟨h.1.symm, h.2.symm⟩

/-- C10: every success response — fresh or cache hit — carries the
runtime-shim field `wasmExec`; for every language other than `go` it is the
empty string rather than an omitted key, and it holds the `wasm_exec.js`
text exactly for `go`: on a fresh compile it is the shim read from the
sandbox, on a cache hit the shim stored in the entry. -/
theorem runtime_shim_field (st : ServerState) (lang code : String) (now : Nat)
    (o : CompileOracle) (hwf : CacheWF st.cache)
    (hl : (LANGUAGES lang).isSome = true) (hc : code ≠ "") :
    (handleCompile st (some lang) (some code) now o).2.1.success = some true →
    ∃ s, (handleCompile st (some lang) (some code) now o).2.1.wasmExec
        = some s ∧
      (lang ≠ "go" → s = "") ∧
      (lang = "go" →
        ((handleCompile st (some lang) (some code) now o).2.1.cached = none →
          s = o.shimOut) ∧
        ∀ e, lookupAssoc st.cache (getCacheKey lang code) = some e →
          s = e.wasmExec) := by
  have hlang : lang ≠ "" := by
    intro hq
    rw [hq] at hl
    exact absurd hl (by decide)
  have hfal : ¬(falsyOpt (some lang) = true ∨ falsyOpt (some code) = true) := by
    simp [falsyOpt, hlang, hc]
  have hnn : ¬((LANGUAGES lang).isNone = true) := by
    rcases hL : LANGUAGES lang with _ | c
    · rw [hL] at hl
      simp at hl
    · simp
  rcases he : lookupAssoc st.cache (getCacheKey lang code) with _ | e
  · rcases hb : (brokerRun lang code (getCacheKey lang code)
        (step0 st o.dockerUp).1 now o).2.1 with ⟨w, sh⟩ | m
    · rw [handleCompile_miss_ok hfal hnn he hb]
      intro _
      obtain ⟨hw, hsh⟩ := brokerRun_ok_shape hb
      refine ⟨sh, rfl, ?_, ?_⟩
      · intro hng
        rw [hsh, if_neg hng]
      · intro hg
        refine ⟨fun _ => by rw [hsh, if_pos hg], ?_⟩
        intro e2 he2
        exact absurd he2 (by simp)
    · rw [handleCompile_miss_fail hfal hnn he hb]
      intro hcon
      simp at hcon
  · rw [handleCompile_hit hfal hnn he]
    intro _
    refine ⟨e.wasmExec, rfl, ?_, ?_⟩
    · intro hng
      obtain ⟨l2, c2, hl2, hkey, hshim⟩ := hwf _ (lookupAssoc_mem he)
      have hll : lang = l2 := getCacheKey_lang_inj hl hl2 hkey
      exact hshim (by rw [← hll]; exact hng)
    · intro hg
      refine ⟨fun hcon => by simp at hcon, ?_⟩
      intro e2 he2
      injection he2 with h2
      rw [h2]

theorem runtime_shim_field_witness :
    ∃ s, (handleCompile readyState (some "go") (some "abc") 3 okOracle).2.1.wasmExec
        = some s ∧
      ("go" ≠ "go" → s = "") ∧
      ("go" = "go" →
        ((handleCompile readyState (some "go") (some "abc") 3 okOracle).2.1.cached
            = none → s = okOracle.shimOut) ∧
        ∀ e, lookupAssoc readyState.cache (getCacheKey "go" "abc") = some e →
          s = e.wasmExec) :=
  runtime_shim_field readyState "go" "abc" 3 okOracle
    (fun kv h => absurd h (List.not_mem_nil kv)) (by decide) (by decide)
    (by decide)

theorem mem_cleanCache {now : Nat} {c : List (String × CacheEntry)}
    {kv : String × CacheEntry} (h : kv ∈ cleanCache now c) : kv ∈ c := by
  simp only [cleanCache] at h
  split at h
  · exact List.mem_of_mem_filter (List.mem_of_mem_filter h)
  · exact List.mem_of_mem_filter h

theorem mem_setAssoc {c : List (String × CacheEntry)} {k : String}
    {e : CacheEntry} {kv : String × CacheEntry} (h : kv ∈ setAssoc c k e) :
    kv ∈ c ∨ kv = (k, e) := by
  unfold setAssoc at h
  split at h
  · rcases List.mem_map.mp h with ⟨kv0, hkv0, heq⟩
    by_cases hk : kv0.1 = k
    · rw [if_pos hk] at heq
      exact Or.inr heq.symm
    · rw [if_neg hk] at heq
      exact Or.inl (heq ▸ hkv0)
  · rcases List.mem_append.mp h with h | h
    · exact Or.inl h
    · simp only [List.mem_singleton] at h
      exact Or.inr h

theorem brokerRun_cache (language code key : String) (st : ServerState)
    (now : Nat) (o : CompileOracle) :
    (brokerRun language code key st now o).1.cache = st.cache ∨
    (brokerRun language code key st now o).1.cache
      = setAssoc (cleanCache now st.cache) key
          ⟨o.wasmOut, (if language = "go" then o.shimOut else ""), now⟩ := by
  unfold brokerRun
  split
  · exact Or.inl rfl
  · split
    · exact Or.inl rfl
    · split
      · exact Or.inl rfl
      · exact Or.inr rfl

/-- Handling any request preserves cache well-formedness, so the
`CacheWF` hypothesis of the runtime-shim theorem is an invariant of the
system (it holds of the empty initial cache). -/
theorem handleCompile_preserves_wf (st : ServerState)
    (language code : Option String) (now : Nat) (o : CompileOracle)
    (hwf : CacheWF st.cache) :
    CacheWF (handleCompile st language code now o).1.cache := by
  by_cases hv : falsyOpt language = true ∨ falsyOpt code = true ∨
      (LANGUAGES (language.getD "")).isNone = true
  · obtain ⟨m, hm⟩ := handleCompile_invalid st language code now o hv
    rw [hm, step0_cache]
    exact hwf
  · push_neg at hv
    obtain ⟨hf1, hf2, hnn⟩ := hv
    rcases language with _ | lang
    · exact absurd rfl hf1
    rcases code with _ | codeS
    · exact absurd rfl hf2
    simp only [Option.getD_some] at hnn
    have hfal : ¬(falsyOpt (some lang) = true ∨ falsyOpt (some codeS) = true) := by
      intro h
      rcases h with h | h
      · exact hf1 h
      · exact hf2 h
    have hls : (LANGUAGES lang).isSome = true := by
      rcases hL : LANGUAGES lang with _ | c
      · exact absurd (by rw [hL]; rfl) hnn
      · rfl
    rcases he : lookupAssoc st.cache (getCacheKey lang codeS) with _ | e
    · rcases hb : (brokerRun lang codeS (getCacheKey lang codeS)
          (step0 st o.dockerUp).1 now o).2.1 with ⟨w, sh⟩ | m
      · rw [handleCompile_miss_ok hfal hnn he hb]
        rcases brokerRun_cache lang codeS (getCacheKey lang codeS)
            (step0 st o.dockerUp).1 now o with hcc | hcc <;>
          rw [hcc, step0_cache]
        · exact hwf
        · intro kv hkv
          rcases mem_setAssoc hkv with hkv | hkv
          · exact hwf _ (mem_cleanCache hkv)
          · refine ⟨lang, codeS, hls, by rw [hkv], ?_⟩
            intro hng
            rw [hkv]
            simp [if_neg hng]
      · rw [handleCompile_miss_fail hfal hnn he hb]
        rcases brokerRun_cache lang codeS (getCacheKey lang codeS)
            (step0 st o.dockerUp).1 now o with hcc | hcc <;>
          rw [hcc, step0_cache]
        · exact hwf
        · intro kv hkv
          rcases mem_setAssoc hkv with hkv | hkv
          · exact hwf _ (mem_cleanCache hkv)
          · refine ⟨lang, codeS, hls, by rw [hkv], ?_⟩
            intro hng
            rw [hkv]
            simp [if_neg hng]
    · rw [handleCompile_hit hfal hnn he, step0_cache]
      exact hwf

/-- The source's insert sequence at cache level — `cleanCache()` then
`compilationCache.set` (part_001 lines 227-228) — iterated for `n` distinct
keys, the `i`-th inserted at time `i` (all well within the TTL). -/
def cacheAfterInserts (n : Nat) : List (String × CacheEntry) :=
  (List.range n).foldl
    (fun c i => setAssoc (cleanCache i c) (natStr i) ⟨"w", "", i⟩) []

set_option maxRecDepth 100000 in
/-- C1 evaluated at the failing input: after inserting `MAX_CACHE_SIZE + 1`
distinct fresh keys into an empty cache the cache holds `MAX_CACHE_SIZE + 1`
entries — one more than its capacity — and the oldest entry has not been
evicted: `cleanCache` evicts only when the size already exceeds the capacity
before the insert, so an insert into a full cache exceeds it. -/
theorem cache_overflow_after_insert :
    (cacheAfterInserts (MAX_CACHE_SIZE + 1)).length = MAX_CACHE_SIZE + 1 ∧
    (lookupAssoc (cacheAfterInserts (MAX_CACHE_SIZE + 1)) (natStr 0)).isSome
      = true := by
  decide
